import Mathlib

/-!
Shallow embedding of the easygo `core` package: the trie router
(`parsePattern`, `insert`, `search`, `getRoute` of router.go), the
request `Context` (`reset`, `Next`, `Abort` of context.go) and the
engine dispatch (`ServeHTTP` of engine.go, the generation that builds
`ctx.handlers = append(e.middlewares, handler)` and calls `ctx.Next()`).

Modelling conventions:
* Go maps (`node.children`, `router.roots`, `router.handlers`, `Context.Params`,
  `Context.Keys`) are association lists; a map assignment replaces an
  existing key in place and otherwise appends, so list order is insertion
  order.  Go map *iteration* order is unspecified; the model iterates in
  insertion order, which is one admissible order.
* A `HandlerFunc` is modelled as a finite sequence of the context
  operations the handlers under study perform: `Next()`, `Abort()`, and an
  observable no-op `mark` used only to record that a point in the handler
  body was reached.  An instrumentation field `log` on the context records
  handler invocations and marks; no source field is otherwise touched by it.
* `nil` handlers / nil results are `Option`; handler values carried by the
  router are `List Step` values (compared for equality only).
-/

namespace EasyGo

/-- One atomic action a modelled handler can perform: call `c.Next()`,
call `c.Abort()`, or an observable no-op (`mark`) recording that this
point of the handler body executed. -/
inductive Step : Type where
  | next : Step
  | abort : Step
  | mark : Nat → Step
deriving DecidableEq, Repr

/-- A modelled `HandlerFunc`: the sequence of context operations it performs. -/
abbrev Handler := List Step

/-- An instrumentation event: handler at chain index `i` was invoked, or a
`mark n` step of some handler body executed. -/
inductive Event : Type where
  | invoke : Nat → Event
  | mark : Nat → Event
deriving DecidableEq, Repr

/-- Go map assignment `m[k] = v` on an association list: replace the entry
in place when the key is present, append otherwise. -/
def assocSet {α : Type} (l : List (String × α)) (k : String) (v : α) :
    List (String × α) :=
  if l.any (fun kv => kv.1 == k) then
    l.map (fun kv => if kv.1 == k then (k, v) else kv)
  else
    l ++ [(k, v)]

/-- Model of router.go `node`: pattern (set on terminal nodes), part (this segment's
text), children (Go: `map[string]*node` keyed by the child's part; here an
association list in insertion order, the key being `child.part`), isWild,
and the handler (`nil` ↦ `none`, set on terminal nodes). -/
inductive Node : Type where
  | mk : String → String → List Node → Bool → Option Handler → Node

def Node.pattern : Node → String
  | .mk p _ _ _ _ => p

def Node.part : Node → String
  | .mk _ p _ _ _ => p

def Node.children : Node → List Node
  | .mk _ _ c _ _ => c

def Node.isWild : Node → Bool
  | .mk _ _ _ w _ => w

def Node.handler : Node → Option Handler
  | .mk _ _ _ _ h => h

/-- Go `strings.Split(s, "/")`, written by structural recursion over the
character list so it evaluates in the kernel: split at every `'/'`,
keeping empty pieces (Go `Split` on `""` yields `[""]`). -/
def splitSlashAux : List Char → List Char → List String
  | [], acc => [String.mk acc.reverse]
  | c :: cs, acc =>
    if c = '/' then String.mk acc.reverse :: splitSlashAux cs []
    else splitSlashAux cs (c :: acc)

/-- Go `strings.Split(s, "/")`. -/
def splitSlash (s : String) : List String :=
  splitSlashAux s.data []

/-- Model of router.go `parsePattern` body: iterate over `strings.Split(pattern, "/")`,
keep non-empty parts, and stop right after appending a part whose first
byte is `'*'`. -/
def parsePatternAux : List String → List String
  | [] => []
  | p :: ps =>
    if p = "" then parsePatternAux ps
    else if p.front = '*' then [p]
    else p :: parsePatternAux ps

/-- Model of router.go `parsePattern`. -/
def parsePattern (pattern : String) : List String :=
  parsePatternAux (splitSlash pattern)

/-- The node freshly created by `insert` for a missing child:
`&node{part: part, children: map..., isWild: part[0] == ':' || part[0] == '*'}`. -/
def mkChild (p : String) : Node :=
  .mk "" p [] (p.front == ':' || p.front == '*') none

/-- The walking loop of router.go `insert`: for each part, create the child
when absent, then descend into it; at the end of the parts overwrite the
node's `pattern` and `handler`. -/
def insertParts : List String → String → Handler → Node → Node
  | [], pattern, hd, n => .mk pattern n.part n.children n.isWild (some hd)
  | p :: ps, pattern, hd, n =>
    let cs := if n.children.any (fun c => c.part == p) then n.children
              else n.children ++ [mkChild p]
    .mk n.pattern n.part
      (cs.map fun c => if c.part == p then insertParts ps pattern hd c else c)
      n.isWild n.handler

/-- The walking loop of router.go `search`: scan the children of the current
node for the first (in iteration order) child with `child.part == part ||
child.isWild`; a `'*'` child binds the joined remainder and returns at once;
a `':'` child binds the current part; otherwise descend.  No child matching
returns nil (`none`). -/
def searchLoop : Node → List String → List (String × String) →
    Option (Node × List (String × String))
  | n, [], params => some (n, params)
  | n, part :: rest, params =>
    match n.children.find? (fun c => c.part == part || c.isWild) with
    | none => none
    | some child =>
      if child.part.front = '*' then
        some (child, assocSet params (child.part.drop 1)
          (String.intercalate "/" (part :: rest)))
      else
        searchLoop child rest
          (if child.part.front = ':' then assocSet params (child.part.drop 1) part
           else params)

/-- Model of router.go `router`: one trie root per method plus the flat
`method + "-" + pattern ↦ handler` diagnostic map. -/
structure Router : Type where
  roots : List (String × Node)
  handlers : List (String × Handler)

/-- Model of router.go `newRouter`. -/
def Router.new : Router := ⟨[], []⟩

/-- Model of router.go `insert` (= `addRoute`): parse the pattern, create the method
root when absent, walk/extend the trie, store pattern and handler at the
terminal node, and record the handler in the flat map. -/
def Router.insert (r : Router) (method pattern : String) (hd : Handler) :
    Router :=
  let parts := parsePattern pattern
  let key := method ++ "-" ++ pattern
  let roots0 := if r.roots.any (fun mr => mr.1 == method) then r.roots
                else r.roots ++ [(method, Node.mk "" "" [] false none)]
  { roots := roots0.map fun mr =>
      if mr.1 == method then (mr.1, insertParts parts pattern hd mr.2) else mr,
    handlers := assocSet r.handlers key hd }

/-- Model of router.go `search`: parse the path, look up the method root (failing with
nil when absent) and run the walking loop with an empty params map. -/
def Router.search (r : Router) (method path : String) :
    Option (Node × List (String × String)) :=
  match r.roots.find? (fun mr => mr.1 == method) with
  | none => none
  | some mr => searchLoop mr.2 (parsePattern path) []

/-- Model of router.go `getRoute`: `search`, then return the found node's handler
field (which may itself be nil) with the params, or (nil, nil). -/
def Router.getRoute (r : Router) (method path : String) :
    Option Handler × List (String × String) :=
  match r.search method path with
  | some np => (np.1.handler, np.2)
  | none => (none, [])

/-- Model of context.go `Context`: the per-request fields (`engine` backreference
omitted; `Writer`/`Request` modelled as opaque identifiers; `Keys` values
modelled as `Nat`).  `log` is pure instrumentation recording handler
invocations and `mark` steps; no source operation reads it. -/
structure Context : Type where
  writer : Nat
  request : Nat
  params : List (String × String)
  handlers : List Handler
  index : Int
  keys : List (String × Nat)
  statusCode : Nat
  log : List Event
deriving DecidableEq, Repr

/-- Model of context.go `reset`: assigns `Writer`, `Request`, a fresh empty `Params`
map, `handlers = nil`, `index = -1` and a fresh empty `Keys` map — and
nothing else (in particular `StatusCode` is not assigned). -/
def Context.reset (c : Context) (w r : Nat) : Context :=
  { c with writer := w, request := r, params := [], handlers := [],
           index := -1, keys := [] }

mutual

/-- Execution of a handler body: each `Step` performs the corresponding
context.go operation.  `.mark n` only records an event; `.abort` is
context.go `Abort` (`c.index = len(c.handlers)`); `.next` is context.go
`Next` (`c.index++` then the invocation loop, i.e. `nextFrom`). -/
def runSteps : Nat → List Step → Context → Context
  | _, [], s => s
  | f, .mark n :: rest, s =>
    runSteps f rest { s with log := s.log ++ [.mark n] }
  | f, .abort :: rest, s =>
    runSteps f rest { s with index := (s.handlers.length : Int) }
  | f, .next :: rest, s =>
    runSteps f rest (nextFrom f { s with index := s.index + 1 })
termination_by f steps _ => (f, steps.length + 1)

/-- The loop of context.go `Next`: while `c.index < len(c.handlers)`,
invoke `c.handlers[c.index]`, then `c.index++`.  The fuel argument bounds
the number of loop iterations (the source loop terminates because the
index strictly grows); the guard `0 ≤ index` mirrors that the Go slice
access requires a non-negative index, which holds in every reachable
state. -/
def nextFrom : Nat → Context → Context
  | 0, s => s
  | f + 1, s =>
    if 0 ≤ s.index ∧ s.index < (s.handlers.length : Int) then
      let i := s.index.toNat
      let s1 := runSteps f (s.handlers.getD i [])
        { s with log := s.log ++ [.invoke i] }
      nextFrom f { s1 with index := s1.index + 1 }
    else s
termination_by f _ => (f, 0)

end

/-- Model of context.go `Next`: `c.index++` followed by the invocation loop. -/
def Context.Next (f : Nat) (c : Context) : Context :=
  nextFrom f { c with index := c.index + 1 }

/-- Model of context.go `Abort`: `c.index = len(c.handlers)`. -/
def Context.Abort (c : Context) : Context :=
  { c with index := (c.handlers.length : Int) }

/-- Model of context.go `IsAborted`: `c.index == len(c.handlers)`. -/
def Context.IsAborted (c : Context) : Bool :=
  c.index == (c.handlers.length : Int)

/-- Model of engine.go `Engine`: the router plus the global middleware list
(template/pool plumbing omitted — the pool is modelled by `ServeHTTP`
taking the recycled context as an argument). -/
structure Engine : Type where
  router : Router
  middlewares : List Handler

/-- The outcome of engine.go `ServeHTTP`: either the 404 branch
(`http.NotFound`) ran, or the chain was dispatched. -/
inductive Response : Type where
  | notFound : Response
  | completed : Response
deriving DecidableEq, Repr

/-- Model of engine.go `ServeHTTP` (the generation dispatching via `ctx.Next()`):
get a context from the pool (`c0`), `reset` it, resolve the route; on a hit
set `Params`, set `handlers = append(e.middlewares, handler)` and call
`Next()`; otherwise reply 404.  Returns the response kind and the context
as returned to the pool. -/
def Engine.ServeHTTP (e : Engine) (f : Nat) (c0 : Context) (w r : Nat)
    (method path : String) : Response × Context :=
  let c := c0.reset w r
  match e.router.getRoute method path with
  | (some hd, ps) =>
    (.completed, Context.Next f
      { c with params := ps, handlers := e.middlewares ++ [hd] })
  | (none, _) => (.notFound, c)

/-- Restatement of the parser contract in the spec's words (§4.1), used only
to compare `parsePattern` against it: keep the non-empty segments of the
split and cut the list right after the first segment whose first character
is the wildcard marker. -/
def specTruncAtWild : List String → List String
  | [] => []
  | p :: ps => if p.front = '*' then [p] else p :: specTruncAtWild ps

/-- Whether a handler body performs no control-flow call (no `Next`, no
`Abort`): only observable marks. -/
def pureSteps (l : List Step) : Bool :=
  l.all fun st =>
    match st with
    | .mark _ => true
    | _ => false

/-- The mark events a handler body emits, in order. -/
def marksOf (l : List Step) : List Event :=
  l.filterMap fun st =>
    match st with
    | .mark n => some (Event.mark n)
    | _ => none

/-- The handler indices recorded as invoked in a log, in order. -/
def invokes (l : List Event) : List Nat :=
  l.filterMap fun e =>
    match e with
    | .invoke i => some i
    | _ => none

/-- Expected log of running handlers `hs` from chain index `j` on when none
of them calls `Next` or `Abort`: each is invoked in order, emitting its
marks. -/
def traceFrom (j : Nat) : List Handler → List Event
  | [] => []
  | h :: t => Event.invoke j :: (marksOf h ++ traceFrom (j + 1) t)

/-- Parameter bindings accumulated by the search walk over matched pattern
and path segments: one map assignment per parameter segment, keyed by the
name after the `':'` marker. -/
def bindParams : List (String × String) → List String → List String →
    List (String × String)
  | acc, [], _ => acc
  | acc, _, [] => acc
  | acc, pp :: pps, sp :: sps =>
    bindParams (if pp.front = ':' then assocSet acc (pp.drop 1) sp else acc)
      pps sps

/-- The parameter names of a segment list, in order. -/
def paramNames (l : List String) : List String :=
  (l.filter fun s => s.front == ':').map fun s => s.drop 1

/-! ### Helper lemmas -/

theorem insertParts_part (parts : List String) (pat : String) (hd : Handler)
    (n : Node) : (insertParts parts pat hd n).part = n.part := by
  cases parts <;> rfl

theorem insertParts_isWild (parts : List String) (pat : String) (hd : Handler)
    (n : Node) : (insertParts parts pat hd n).isWild = n.isWild := by
  cases parts <;> rfl

theorem parsePatternAux_filter (l : List String) :
    parsePatternAux (l.filter fun s => !(s == "")) = parsePatternAux l := by
  induction l with
  | nil => rfl
  | cons p ps ih =>
    by_cases hp : p = ""
    · subst hp; simpa [parsePatternAux] using ih
    · simp [parsePatternAux, hp, ih, List.filter_cons]

/-- Claim C9 counterexample input: a pooled context carrying state from a
previous request. -/
def staleCtx : Context :=
  { writer := 7, request := 7, params := [("id", "9")],
    handlers := [[Step.mark 3]], index := 2, keys := [("user", 5)],
    statusCode := 500, log := [] }

/-- C9 (corrected): `reset` overwrites writer, request, params, handlers,
index and keys — and nothing else; in particular the response status code
keeps its previous value instead of returning to its default. -/
theorem reset_overwrites_per_request_fields (c : Context) (w r : Nat) :
    (c.reset w r).writer = w ∧ (c.reset w r).request = r ∧
    (c.reset w r).params = [] ∧ (c.reset w r).handlers = [] ∧
    (c.reset w r).index = -1 ∧ (c.reset w r).keys = [] ∧
    (c.reset w r).statusCode = c.statusCode := by
  simp [Context.reset]

/-- C9 counterexample: after `reset`, a context whose previous request set
`StatusCode = 500` still reports 500, not the zero default — `reset` does
not overwrite every per-request field. -/
theorem reset_retains_statusCode :
    (staleCtx.reset 1 2).params = [] ∧ (staleCtx.reset 1 2).keys = [] ∧
    (staleCtx.reset 1 2).handlers = [] ∧ (staleCtx.reset 1 2).index = -1 ∧
    (staleCtx.reset 1 2).statusCode = 500 ∧
    ¬(staleCtx.reset 1 2).statusCode = 0 := by
  refine ⟨rfl, rfl, rfl, rfl, rfl, ?_⟩
  decide

/-- C10: `search` (and `getRoute`) see a path only through `parsePattern`,
which discards empty segments, so two paths with the same non-empty
segments — i.e. differing only by repeated or trailing `/` separators —
produce the same search result and the same parameter bindings. -/
theorem search_ignores_empty_segments (r : Router) (m p₁ p₂ : String)
    (h : (splitSlash p₁).filter (fun s => !(s == "")) =
         (splitSlash p₂).filter (fun s => !(s == ""))) :
    parsePattern p₁ = parsePattern p₂ ∧
    r.search m p₁ = r.search m p₂ ∧
    r.getRoute m p₁ = r.getRoute m p₂ := by
  have hp : parsePattern p₁ = parsePattern p₂ := by
    rw [parsePattern, parsePattern, ← parsePatternAux_filter (splitSlash p₁),
        ← parsePatternAux_filter (splitSlash p₂), h]
  have hs : r.search m p₁ = r.search m p₂ := by
    rw [Router.search, Router.search, hp]
  exact ⟨hp, hs, by rw [Router.getRoute, Router.getRoute, hs]⟩

/-- C10 witness: `/user/42/` and `//user//42` resolve exactly like
`/user/42` on a router with `/user/:id` registered. -/
theorem search_ignores_empty_segments_witness :
    (parsePattern "/user/42/" = parsePattern "/user/42" ∧
      (Router.new.insert "GET" "/user/:id" [.mark 1]).search "GET" "/user/42/" =
        (Router.new.insert "GET" "/user/:id" [.mark 1]).search "GET" "/user/42" ∧
      (Router.new.insert "GET" "/user/:id" [.mark 1]).getRoute "GET" "/user/42/" =
        (Router.new.insert "GET" "/user/:id" [.mark 1]).getRoute "GET" "/user/42") ∧
    (parsePattern "//user//42" = parsePattern "/user/42" ∧
      (Router.new.insert "GET" "/user/:id" [.mark 1]).search "GET" "//user//42" =
        (Router.new.insert "GET" "/user/:id" [.mark 1]).search "GET" "/user/42" ∧
      (Router.new.insert "GET" "/user/:id" [.mark 1]).getRoute "GET" "//user//42" =
        (Router.new.insert "GET" "/user/:id" [.mark 1]).getRoute "GET" "/user/42") :=
  ⟨search_ignores_empty_segments _ "GET" "/user/42/" "/user/42" (by decide),
   search_ignores_empty_segments _ "GET" "//user//42" "/user/42" (by decide)⟩

theorem mkChild_part (p : String) : (mkChild p).part = p := rfl

theorem Node.pattern_mk (a b : String) (c : List Node) (d : Bool)
    (e : Option Handler) : (Node.mk a b c d e).pattern = a := rfl

theorem Node.part_mk (a b : String) (c : List Node) (d : Bool)
    (e : Option Handler) : (Node.mk a b c d e).part = b := rfl

theorem Node.children_mk (a b : String) (c : List Node) (d : Bool)
    (e : Option Handler) : (Node.mk a b c d e).children = c := rfl

theorem Node.isWild_mk (a b : String) (c : List Node) (d : Bool)
    (e : Option Handler) : (Node.mk a b c d e).isWild = d := rfl

theorem Node.handler_mk (a b : String) (c : List Node) (d : Bool)
    (e : Option Handler) : (Node.mk a b c d e).handler = e := rfl

theorem any_part_map (cs : List Node) (p : String) (f : Node → Node)
    (hf : ∀ c, (f c).part = c.part) :
    ((cs.map f).any fun c => c.part == p) = (cs.any fun c => c.part == p) := by
  rw [List.any_map]
  congr 1
  funext c
  simp [Function.comp, hf]

theorem assocSet_assocSet {α : Type} (l : List (String × α)) (k : String)
    (v₁ v₂ : α) : assocSet (assocSet l k v₁) k v₂ = assocSet l k v₂ := by
  unfold assocSet
  by_cases h : l.any (fun kv => kv.1 == k)
  · have h2 : ((l.map fun kv => if kv.1 == k then (k, v₁) else kv).any
        fun kv => kv.1 == k) = true := by
      rcases List.any_eq_true.mp h with ⟨kv, hmem, hk⟩
      exact List.any_eq_true.mpr
        ⟨(k, v₁), List.mem_map.mpr ⟨kv, hmem, by simp [hk]⟩, by simp⟩
    simp only [if_pos h, if_pos h2, List.map_map]
    apply List.map_congr_left
    intro kv _
    by_cases hkv : kv.1 = k
    · simp [hkv]
    · simp [hkv]
  · have h2 : ((l ++ [(k, v₁)]).any fun kv => kv.1 == k) = true := by simp
    have hf : ∀ kv ∈ l, (kv.1 == k) = false := by
      intro kv hmem
      by_contra hc
      exact h (List.any_eq_true.mpr ⟨kv, hmem, by simpa using hc⟩)
    have h3 : ((l ++ [(k, v₁)]).map fun kv =>
        if kv.1 == k then (k, v₂) else kv) = l ++ [(k, v₂)] := by
      rw [List.map_append]
      congr 1
      · conv_rhs => rw [← List.map_id l]
        apply List.map_congr_left
        intro kv hmem
        simp [hf kv hmem]
      · simp
    simp only [if_neg h, if_pos h2, h3]

/-- Unfolding of the `insert` walk at a non-empty segment list. -/
theorem insertParts_cons (p : String) (ps : List String) (pat : String)
    (hd : Handler) (n : Node) :
    insertParts (p :: ps) pat hd n =
      .mk n.pattern n.part
        ((if n.children.any (fun c => c.part == p) then n.children
          else n.children ++ [mkChild p]).map fun c =>
            if c.part == p then insertParts ps pat hd c else c)
        n.isWild n.handler := rfl

/-- Re-inserting the same segment list walks the same trie chain and only
overwrites the terminal pattern and handler: the second insertion absorbs
the first. -/
theorem insertParts_insertParts (parts : List String) (pat₁ pat₂ : String)
    (h₁ h₂ : Handler) (n : Node) :
    insertParts parts pat₂ h₂ (insertParts parts pat₁ h₁ n) =
      insertParts parts pat₂ h₂ n := by
  induction parts generalizing n with
  | nil => rfl
  | cons p ps ih =>
    rw [insertParts_cons, insertParts_cons p ps pat₁ h₁ n, insertParts_cons]
    simp only [Node.pattern_mk, Node.part_mk, Node.children_mk,
      Node.isWild_mk, Node.handler_mk]
    set cs := if n.children.any (fun c => c.part == p) then n.children
              else n.children ++ [mkChild p] with hcsdef
    have hcsany : (cs.any fun c => c.part == p) = true := by
      by_cases hc : (n.children.any fun c => c.part == p) = true
      · rw [hcsdef, if_pos hc]; exact hc
      · rw [hcsdef, if_neg hc, List.any_append]
        simp [mkChild_part]
    have h1 : (((cs.map fun c =>
        if c.part == p then insertParts ps pat₁ h₁ c else c).any
          fun c => c.part == p) = true) := by
      rw [any_part_map]
      · exact hcsany
      · intro c
        by_cases hc : (c.part == p) = true
        · rw [if_pos hc]; rw [insertParts_part]
        · rw [if_neg hc]
    rw [if_pos h1, List.map_map]
    congr 1
    apply List.map_congr_left
    intro c _
    simp only [Function.comp_apply]
    by_cases hc : (c.part == p) = true
    · rw [if_pos hc, if_pos (by rw [insertParts_part]; exact hc), if_pos hc, ih]
    · rw [if_neg hc, if_neg hc]

/-- Map-update of the roots list preserves the key set. -/
theorem roots_any_map (l : List (String × Node)) (m : String)
    (f : String × Node → String × Node) (hf : ∀ x, (f x).1 = x.1) :
    ((l.map f).any fun mr => mr.1 == m) = (l.any fun mr => mr.1 == m) := by
  rw [List.any_map]
  congr 1
  funext x
  simp [Function.comp, hf]

/-- Two insertions whose patterns parse to the same segment list build the
same trie: the walks coincide and the second terminal write wins. -/
theorem insert_insert_roots (r : Router) (m p₁ p₂ : String)
    (h₁ h₂ : Handler) (hp : parsePattern p₁ = parsePattern p₂) :
    ((r.insert m p₁ h₁).insert m p₂ h₂).roots = (r.insert m p₂ h₂).roots := by
  simp only [Router.insert, hp]
  have hA : ∀ (A : List (String × Node)),
      ((A.map fun mr => if mr.1 == m then
          (mr.1, insertParts (parsePattern p₂) p₁ h₁ mr.2) else mr).any
        fun mr => mr.1 == m) = (A.any fun mr => mr.1 == m) := by
    intro A
    apply roots_any_map
    intro x
    by_cases hx : x.1 == m <;> simp [hx]
  set A := if r.roots.any (fun mr => mr.1 == m) then r.roots
           else r.roots ++ [(m, Node.mk "" "" [] false none)] with hAdef
  have hAany : (A.any fun mr => mr.1 == m) = true := by
    by_cases hc : r.roots.any (fun mr => mr.1 == m)
    · simp [hAdef, hc]
    · simp [hAdef, eq_false_of_ne_true hc]
  rw [hA A, hAany]
  simp only [if_true, List.map_map]
  apply List.map_congr_left
  intro mr _
  by_cases hmr : mr.1 == m
  · simp only [Function.comp_apply, hmr, if_true, insertParts_insertParts]
  · simp [Function.comp, hmr]

/-- Search reads a router only through its roots. -/
theorem search_congr_roots (r₁ r₂ : Router) (m p : String)
    (h : r₁.roots = r₂.roots) : r₁.search m p = r₂.search m p := by
  rw [Router.search, Router.search, h]

/-- C5: inserting a (method, pattern) pair a second time yields exactly the
router a single insertion of the new handler would: the walk revisits the
same chain, the terminal handler and pattern are overwritten, and the flat
diagnostic map entry is replaced — so every subsequent search sees only the
most recent handler. -/
theorem insert_overwrites_handler (r : Router) (m p : String)
    (h₁ h₂ : Handler) :
    (r.insert m p h₁).insert m p h₂ = r.insert m p h₂ := by
  have hroots := insert_insert_roots r m p p h₁ h₂ rfl
  have hhandlers : ((r.insert m p h₁).insert m p h₂).handlers =
      (r.insert m p h₂).handlers := by
    simp only [Router.insert]
    exact assocSet_assocSet r.handlers (m ++ "-" ++ p) h₁ h₂
  cases hr : (r.insert m p h₁).insert m p h₂ with
  | mk a b =>
    cases hs : r.insert m p h₂ with
    | mk a' b' =>
      rw [hr] at hroots hhandlers
      rw [hs] at hroots hhandlers
      simp_all

theorem parsePatternAux_eq_trunc (l : List String) :
    parsePatternAux l = specTruncAtWild (l.filter fun s => !(s == "")) := by
  induction l with
  | nil => rfl
  | cons p ps ih =>
    by_cases hp : p = ""
    · subst hp; simpa [parsePatternAux] using ih
    · by_cases hw : p.front = '*'
      · simp [parsePatternAux, hp, hw, specTruncAtWild, List.filter_cons]
      · simp [parsePatternAux, hp, hw, specTruncAtWild, List.filter_cons, ih]

/-- Parsing ignores everything after a split prefix that contains a
non-empty segment starting with the wildcard marker. -/
theorem parsePatternAux_append_star (l suf₁ suf₂ : List String)
    (hstar : ∃ s ∈ l, s ≠ "" ∧ s.front = '*') :
    parsePatternAux (l ++ suf₁) = parsePatternAux (l ++ suf₂) := by
  induction l with
  | nil => simp at hstar
  | cons p l' ih =>
    rcases hstar with ⟨s, hs, hne, hw⟩
    by_cases hp : p = ""
    · subst hp
      simp only [List.cons_append, parsePatternAux, if_pos rfl]
      apply ih
      rcases List.mem_cons.mp hs with h | h
      · exact absurd (h ▸ hne) (by simp)
      · exact ⟨s, h, hne, hw⟩
    · by_cases hpw : p.front = '*'
      · simp only [List.cons_append, parsePatternAux, if_neg hp, if_pos hpw]
      · simp only [List.cons_append, parsePatternAux, if_neg hp, if_neg hpw]
        congr 1
        apply ih
        rcases List.mem_cons.mp hs with h | h
        · exact absurd (h ▸ hw) (h ▸ hpw)
        · exact ⟨s, h, hne, hw⟩

/-- C4: `parsePattern` splits on `/`, keeps the non-empty segments, and cuts
right after the first segment starting with `'*'` (the spec-side
restatement `specTruncAtWild`); two patterns differing only in segments
after a wildcard segment therefore parse to identical segment lists, are
inserted along the same trie chain and collide, the last insertion
winning: searches through the two-insertion router behave exactly like
the router holding only the second insertion. -/
theorem parsePattern_wildcard_collision (r : Router) (m p₁ p₂ : String)
    (h₁ h₂ : Handler) (l suf₁ suf₂ : List String)
    (hs₁ : splitSlash p₁ = l ++ suf₁) (hs₂ : splitSlash p₂ = l ++ suf₂)
    (hstar : ∃ s ∈ l, s ≠ "" ∧ s.front = '*') :
    (∀ q : String, parsePattern q =
      specTruncAtWild ((splitSlash q).filter fun s => !(s == ""))) ∧
    parsePattern p₁ = parsePattern p₂ ∧
    ((r.insert m p₁ h₁).insert m p₂ h₂).roots = (r.insert m p₂ h₂).roots ∧
    ∀ method path, ((r.insert m p₁ h₁).insert m p₂ h₂).search method path =
      (r.insert m p₂ h₂).search method path := by
  have hp : parsePattern p₁ = parsePattern p₂ := by
    rw [parsePattern, parsePattern, hs₁, hs₂]
    exact parsePatternAux_append_star l suf₁ suf₂ hstar
  refine ⟨fun q => parsePatternAux_eq_trunc (splitSlash q), hp, ?_, ?_⟩
  · exact insert_insert_roots r m p₁ p₂ h₁ h₂ hp
  · intro method path
    exact search_congr_roots _ _ method path
      (insert_insert_roots r m p₁ p₂ h₁ h₂ hp)

/-- C4 witness: `/static/*filepath/x` and `/static/*filepath/y` differ only
after the wildcard segment, parse identically, and collide — the second
registration wins. -/
theorem parsePattern_wildcard_collision_witness :
    splitSlash "/static/*filepath/x" = ["", "static", "*filepath"] ++ ["x"] ∧
    splitSlash "/static/*filepath/y" = ["", "static", "*filepath"] ++ ["y"] ∧
    ((∀ q : String, parsePattern q =
        specTruncAtWild ((splitSlash q).filter fun s => !(s == ""))) ∧
      parsePattern "/static/*filepath/x" = parsePattern "/static/*filepath/y" ∧
      ((Router.new.insert "GET" "/static/*filepath/x" [.mark 1]).insert "GET"
          "/static/*filepath/y" [.mark 2]).roots =
        (Router.new.insert "GET" "/static/*filepath/y" [.mark 2]).roots ∧
      ∀ method path,
        ((Router.new.insert "GET" "/static/*filepath/x" [.mark 1]).insert "GET"
            "/static/*filepath/y" [.mark 2]).search method path =
          (Router.new.insert "GET" "/static/*filepath/y" [.mark 2]).search
            method path) :=
  ⟨by decide, by decide, parsePattern_wildcard_collision Router.new "GET"
    "/static/*filepath/x" "/static/*filepath/y" [.mark 1] [.mark 2]
    ["", "static", "*filepath"] ["x"] ["y"] (by decide) (by decide)
    ⟨"*filepath", by decide, by decide, by decide⟩⟩

theorem lookup_map_set {α : Type} (l : List (String × α)) (k k' : String)
    (v : α) (hne : k' ≠ k) :
    (l.map fun kv => if kv.1 == k then (k, v) else kv).lookup k' =
      l.lookup k' := by
  induction l with
  | nil => rfl
  | cons kv rest ih =>
    have h1 : (k' == k) = false := by simpa using hne
    rw [List.map_cons]
    by_cases hk : (kv.1 == k) = true
    · rw [if_pos hk]
      have hk' : kv.1 = k := by simpa using hk
      have h2 : (k' == kv.1) = false := by rw [hk']; exact h1
      simp only [List.lookup, h1, h2]
      exact ih
    · rw [if_neg hk]
      by_cases h3 : (k' == kv.1) = true
      · simp only [List.lookup, h3]
      · simp only [List.lookup, eq_false_of_ne_true h3]
        exact ih

theorem lookup_append_single {α : Type} (l : List (String × α))
    (k k' : String) (v : α) (hne : k' ≠ k) :
    (l ++ [(k, v)]).lookup k' = l.lookup k' := by
  have h1 : (k' == k) = false := by simpa using hne
  induction l with
  | nil => simp [List.lookup, h1]
  | cons kv rest ih =>
    by_cases h3 : (k' == kv.1) = true
    · simp [List.lookup, h3]
    · simp [List.lookup, eq_false_of_ne_true h3, ih]

theorem lookup_map_set_self {α : Type} (l : List (String × α)) (k : String)
    (v : α) (h : (l.any fun kv => kv.1 == k) = true) :
    (l.map fun kv => if kv.1 == k then (k, v) else kv).lookup k = some v := by
  induction l with
  | nil => simp at h
  | cons kv rest ih =>
    rw [List.map_cons]
    by_cases hk : (kv.1 == k) = true
    · rw [if_pos hk]
      simp [List.lookup]
    · have hk' : (kv.1 == k) = false := eq_false_of_ne_true hk
      have hne : (k == kv.1) = false := by
        rw [beq_eq_false_iff_ne] at hk' ⊢
        exact fun h' => hk' h'.symm
      have hrest : (rest.any fun kv => kv.1 == k) = true := by
        rcases List.any_eq_true.mp h with ⟨x, hx, hxk⟩
        rcases List.mem_cons.mp hx with h' | h'
        · exact absurd (h' ▸ hxk) (by simp [hk'])
        · exact List.any_eq_true.mpr ⟨x, h', hxk⟩
      rw [if_neg hk]
      simp only [List.lookup, hne]
      exact ih hrest

theorem lookup_append_self {α : Type} (l : List (String × α)) (k : String)
    (v : α) (h : ∀ kv ∈ l, (kv.1 == k) = false) :
    (l ++ [(k, v)]).lookup k = some v := by
  induction l with
  | nil => simp [List.lookup]
  | cons kv rest ih =>
    have hne : (k == kv.1) = false := by
      have h0 := h kv (List.mem_cons_self kv rest)
      rw [beq_eq_false_iff_ne] at h0 ⊢
      exact fun h' => h0 h'.symm
    rw [List.cons_append]
    simp only [List.lookup, hne]
    exact ih fun x hx => h x (List.mem_cons_of_mem kv hx)

theorem lookup_assocSet_self {α : Type} (l : List (String × α)) (k : String)
    (v : α) : (assocSet l k v).lookup k = some v := by
  unfold assocSet
  by_cases h : (l.any fun kv => kv.1 == k) = true
  · rw [if_pos h]; exact lookup_map_set_self l k v h
  · rw [if_neg h]
    apply lookup_append_self
    intro kv hkv
    by_contra hc
    exact h (List.any_eq_true.mpr ⟨kv, hkv, by simpa using hc⟩)

theorem lookup_assocSet_ne {α : Type} (l : List (String × α)) (k k' : String)
    (v : α) (hne : k' ≠ k) :
    (assocSet l k v).lookup k' = l.lookup k' := by
  unfold assocSet
  by_cases h : (l.any fun kv => kv.1 == k) = true
  · rw [if_pos h]; exact lookup_map_set l k k' v hne
  · rw [if_neg h]; exact lookup_append_single l k k' v hne

theorem bindParams_not_param (pps : List String) :
    ∀ (sps : List String) (acc : List (String × String)) (name : String),
    name ∉ paramNames pps →
    (bindParams acc pps sps).lookup name = acc.lookup name := by
  induction pps with
  | nil => intro sps acc name _; cases sps <;> rfl
  | cons pp pps' ih =>
    intro sps acc name hname
    cases sps with
    | nil => rfl
    | cons sp sps' =>
      by_cases hpp : pp.front = ':'
      · have hmm : (pp.front == ':') = true := by simp [hpp]
        have hns : name ∉ paramNames pps' ∧ name ≠ pp.drop 1 := by
          constructor
          · intro hc
            exact hname (by
              simp only [paramNames, List.filter_cons, hmm]
              exact List.mem_cons_of_mem _ (by simpa [paramNames] using hc))
          · intro hc
            exact hname (by
              simp only [paramNames, List.filter_cons, hmm]
              exact hc ▸ List.mem_cons_self _ _)
        simp only [bindParams, if_pos hpp]
        rw [ih sps' _ name hns.1]
        exact lookup_assocSet_ne acc (pp.drop 1) name sp hns.2
      · have hmm : (pp.front == ':') = false := by simp [hpp]
        simp only [bindParams, if_neg hpp]
        apply ih sps' acc name
        intro hc
        exact hname (by simpa [paramNames, List.filter_cons, hmm] using hc)

theorem bindParams_param_lookup (pps : List String) :
    ∀ (sps : List String) (acc : List (String × String)) (pp sp : String),
    (pp, sp) ∈ List.zip pps sps → pp.front = ':' →
    (paramNames pps).Nodup →
    (bindParams acc pps sps).lookup (pp.drop 1) = some sp := by
  induction pps with
  | nil => intro sps acc pp sp hmem _ _; simp [List.zip] at hmem
  | cons q pps' ih =>
    intro sps acc pp sp hmem hpp hnodup
    cases sps with
    | nil => simp [List.zip] at hmem
    | cons t sps' =>
      rw [List.zip_cons_cons, List.mem_cons] at hmem
      rcases hmem with heq | htail
      · injection heq with hq ht
        subst hq
        subst ht
        have hmm : (pp.front == ':') = true := by simp [hpp]
        have hnames : paramNames (pp :: pps') =
            pp.drop 1 :: paramNames pps' := by
          simp [paramNames, List.filter_cons, hmm]
        rw [hnames] at hnodup
        obtain ⟨hnotin, _⟩ := List.nodup_cons.mp hnodup
        simp only [bindParams, if_pos hpp]
        rw [bindParams_not_param pps' sps' _ _ hnotin]
        exact lookup_assocSet_self acc (pp.drop 1) sp
      · have hnodup' : (paramNames pps').Nodup := by
          by_cases hq : (q.front == ':') = true
          · have hnames : paramNames (q :: pps') =
                q.drop 1 :: paramNames pps' := by
              simp [paramNames, List.filter_cons, hq]
            rw [hnames] at hnodup
            exact (List.nodup_cons.mp hnodup).2
          · have hnames : paramNames (q :: pps') = paramNames pps' := by
              simp [paramNames, List.filter_cons, eq_false_of_ne_true hq]
            rwa [hnames] at hnodup
        by_cases hqf : q.front = ':'
        · simp only [bindParams, if_pos hqf]
          exact ih sps' _ pp sp htail hpp hnodup'
        · simp only [bindParams, if_neg hqf]
          exact ih sps' _ pp sp htail hpp hnodup'

/-- C3 counterexample: with `/user/:id` registered before `/user/new`,
searching `/user/new` returns the handler and binding of `/user/:id` —
the exact literal child is *not* preferred; the first matching child in
children-iteration order wins (`child.part == part || child.isWild`, first
match breaks). -/
theorem search_exact_literal_not_preferred :
    ((Router.new.insert "GET" "/user/:id" [.mark 1]).insert "GET" "/user/new"
        [.mark 2]).getRoute "GET" "/user/new" =
      (some [.mark 1], [("id", "new")]) ∧
    ¬((Router.new.insert "GET" "/user/:id" [.mark 1]).insert "GET" "/user/new"
        [.mark 2]).getRoute "GET" "/user/new" = (some [.mark 2], []) := by
  constructor <;> decide

/-- C3 (corrected): `search` takes the first child in children-iteration
order satisfying `child.part == part || child.isWild`.  With children held
in insertion order, registering `/user/new` before `/user/:id` makes
`/user/new` resolve to `/user/new`'s handler, while registering `/user/:id`
first makes the same search resolve to `/user/:id`'s handler. -/
theorem search_first_matching_child_wins :
    ((Router.new.insert "GET" "/user/new" [.mark 2]).insert "GET" "/user/:id"
        [.mark 1]).getRoute "GET" "/user/new" = (some [.mark 2], []) ∧
    ((Router.new.insert "GET" "/user/:id" [.mark 1]).insert "GET" "/user/new"
        [.mark 2]).getRoute "GET" "/user/new" =
      (some [.mark 1], [("id", "new")]) := by
  constructor <;> decide

/-- Searching a freshly-built single chain: inserting a wildcard-free
segment list into a childless node builds one chain, and a path whose
segments match positionwise (parameter segments match anything non-empty,
static segments match on equality) walks straight down it, accumulating
exactly the parameter bindings. -/
theorem searchLoop_insert_chain (pat : String) (hd : Handler)
    {parts sparts : List String}
    (hm : List.Forall₂
      (fun pp sp => if pp.front = ':' then sp ≠ "" else pp = sp) parts sparts) :
    ∀ (n : Node) (acc : List (String × String)), n.children = [] →
    (∀ s ∈ parts, s.front ≠ '*') →
    ∃ t : Node,
      searchLoop (insertParts parts pat hd n) sparts acc =
        some (t, bindParams acc parts sparts) ∧
      t.handler = some hd ∧ t.pattern = pat := by
  induction hm with
  | nil =>
    intro n acc _ _
    exact ⟨.mk pat n.part n.children n.isWild (some hd), rfl, rfl, rfl⟩
  | @cons pp sp pps sps hps _ ih =>
    intro n acc hc hw
    have hnode : insertParts (pp :: pps) pat hd n =
        Node.mk n.pattern n.part [insertParts pps pat hd (mkChild pp)]
          n.isWild n.handler := by
      rw [insertParts_cons, hc]
      simp [mkChild_part]
    have hpart : (insertParts pps pat hd (mkChild pp)).part = pp := by
      rw [insertParts_part, mkChild_part]
    have hwstar : pp.front ≠ '*' := hw pp (List.mem_cons_self pp pps)
    have hwtail : ∀ s ∈ pps, s.front ≠ '*' :=
      fun s hs => hw s (List.mem_cons_of_mem pp hs)
    rw [hnode]
    by_cases hpp : pp.front = ':'
    · obtain ⟨t, hsearch, hth, htp⟩ :=
        ih (mkChild pp) (assocSet acc (pp.drop 1) sp) rfl hwtail
      refine ⟨t, ?_, hth, htp⟩
      have hwild : (insertParts pps pat hd (mkChild pp)).isWild = true := by
        rw [insertParts_isWild]
        simp [mkChild, Node.isWild_mk, hpp]
      have hfind : List.find? (fun c => c.part == sp || c.isWild)
          [insertParts pps pat hd (mkChild pp)] =
            some (insertParts pps pat hd (mkChild pp)) :=
        List.find?_cons_of_pos _ (by simp [hwild])
      simp only [searchLoop, Node.children_mk, hfind]
      simp only [hpart]
      rw [if_neg hwstar, if_pos hpp]
      simp only [bindParams, if_pos hpp]
      exact hsearch
    · have hsp : pp = sp := by rwa [if_neg hpp] at hps
      obtain ⟨t, hsearch, hth, htp⟩ := ih (mkChild pp) acc rfl hwtail
      refine ⟨t, ?_, hth, htp⟩
      have hfind : List.find? (fun c => c.part == sp || c.isWild)
          [insertParts pps pat hd (mkChild pp)] =
            some (insertParts pps pat hd (mkChild pp)) :=
        List.find?_cons_of_pos _ (by rw [hpart, hsp]; simp)
      simp only [searchLoop, Node.children_mk, hfind]
      simp only [hpart]
      rw [if_neg hwstar, if_neg hpp]
      simp only [bindParams, if_neg hpp]
      exact hsearch

/-- A search through a router holding exactly one registration walks the
chain built by that registration. -/
theorem search_new_insert (m P path : String) (hd : Handler) :
    (Router.new.insert m P hd).search m path =
      searchLoop (insertParts (parsePattern P) P hd (.mk "" "" [] false none))
        (parsePattern path) [] := by
  simp [Router.new, Router.insert, Router.search]

/-- C1: with a wildcard-free pattern P registered, any path whose parsed
segment list matches P positionwise — static segments equal, parameter
segments matching any single non-empty segment — is found by `search`:
it returns the terminal node holding P's handler and pattern, and (for
pairwise-distinct parameter names) a parameter map binding each parameter
name of P to the path segment at that position. -/
theorem search_static_param_match (m P path : String) (hd : Handler)
    (hw : ∀ s ∈ parsePattern P, s.front ≠ '*')
    (hm : List.Forall₂
      (fun pp sp => if pp.front = ':' then sp ≠ "" else pp = sp)
      (parsePattern P) (parsePattern path))
    (hnodup : (paramNames (parsePattern P)).Nodup) :
    ∃ t : Node,
      (Router.new.insert m P hd).search m path =
        some (t, bindParams [] (parsePattern P) (parsePattern path)) ∧
      t.handler = some hd ∧ t.pattern = P ∧
      (Router.new.insert m P hd).getRoute m path =
        (some hd, bindParams [] (parsePattern P) (parsePattern path)) ∧
      ∀ pp sp, (pp, sp) ∈ (parsePattern P).zip (parsePattern path) →
        pp.front = ':' →
        (bindParams [] (parsePattern P) (parsePattern path)).lookup
          (pp.drop 1) = some sp := by
  obtain ⟨t, hsearch, hth, htp⟩ :=
    searchLoop_insert_chain P hd hm (.mk "" "" [] false none) [] rfl hw
  have hs : (Router.new.insert m P hd).search m path =
      some (t, bindParams [] (parsePattern P) (parsePattern path)) := by
    rw [search_new_insert]; exact hsearch
  refine ⟨t, hs, hth, htp, ?_, ?_⟩
  · simp only [Router.getRoute, hs, hth]
  · intro pp sp hmem hpp
    exact bindParams_param_lookup _ _ _ pp sp hmem hpp hnodup

/-- C1 witness: GET `/user/:id` registered, path `/user/42` matched:
the handler is returned with binding `id = "42"`. -/
theorem search_static_param_match_witness :
    (∀ s ∈ parsePattern "/user/:id", s.front ≠ '*') ∧
    (paramNames (parsePattern "/user/:id")).Nodup ∧
    ∃ t : Node,
      (Router.new.insert "GET" "/user/:id" [.mark 7]).search "GET" "/user/42" =
        some (t, bindParams [] (parsePattern "/user/:id")
          (parsePattern "/user/42")) ∧
      t.handler = some [.mark 7] ∧ t.pattern = "/user/:id" ∧
      (Router.new.insert "GET" "/user/:id" [.mark 7]).getRoute "GET"
          "/user/42" =
        (some [.mark 7], bindParams [] (parsePattern "/user/:id")
          (parsePattern "/user/42")) ∧
      ∀ pp sp,
        (pp, sp) ∈ (parsePattern "/user/:id").zip (parsePattern "/user/42") →
        pp.front = ':' →
        (bindParams [] (parsePattern "/user/:id")
          (parsePattern "/user/42")).lookup (pp.drop 1) = some sp :=
  ⟨by decide, by decide,
    search_static_param_match "GET" "/user/:id" "/user/42" [.mark 7]
      (by decide) (by decide) (by decide)⟩

/-- Walking a chain that ends in a wildcard segment: once the pre-wildcard
segments are matched and at least one path segment remains, the wildcard
child matches that segment, binds the `/`-joined remainder, and the walk
returns it immediately. -/
theorem searchLoop_insert_wild (pat : String) (hd : Handler) (w : String)
    (hwld : w.front = '*')
    {pre spre : List String}
    (hm : List.Forall₂
      (fun pp sp => if pp.front = ':' then sp ≠ "" else pp = sp) pre spre) :
    ∀ (n : Node) (acc : List (String × String)) (rem : List String),
    rem ≠ [] → n.children = [] → (∀ s ∈ pre, s.front ≠ '*') →
    ∃ t : Node,
      searchLoop (insertParts (pre ++ [w]) pat hd n) (spre ++ rem) acc =
        some (t, assocSet (bindParams acc pre spre) (w.drop 1)
          (String.intercalate "/" rem)) ∧
      t.handler = some hd ∧ t.pattern = pat ∧ t.part = w ∧
      t.isWild = true := by
  induction hm with
  | nil =>
    intro n acc rem hr hc _
    cases rem with
    | nil => exact absurd rfl hr
    | cons r₀ rs =>
      have hnode : insertParts ([] ++ [w]) pat hd n =
          Node.mk n.pattern n.part [insertParts [] pat hd (mkChild w)]
            n.isWild n.handler := by
        rw [List.nil_append, insertParts_cons, hc]
        simp [mkChild_part]
      have hpart : (insertParts [] pat hd (mkChild w)).part = w := by
        rw [insertParts_part, mkChild_part]
      have hwild : (insertParts [] pat hd (mkChild w)).isWild = true := by
        rw [insertParts_isWild]
        simp [mkChild, Node.isWild_mk, hwld]
      have hfind : List.find? (fun c => c.part == r₀ || c.isWild)
          [insertParts [] pat hd (mkChild w)] =
            some (insertParts [] pat hd (mkChild w)) :=
        List.find?_cons_of_pos _ (by simp [hwild])
      refine ⟨insertParts [] pat hd (mkChild w), ?_, rfl, rfl, hpart, hwild⟩
      rw [hnode, List.nil_append]
      simp only [searchLoop, Node.children_mk, hfind]
      rw [if_pos (by rw [hpart]; exact hwld)]
      rw [hpart]
      rfl
  | @cons pp sp pps sps hps _ ih =>
    intro n acc rem hr hc hw
    have hnode : insertParts ((pp :: pps) ++ [w]) pat hd n =
        Node.mk n.pattern n.part
          [insertParts (pps ++ [w]) pat hd (mkChild pp)]
          n.isWild n.handler := by
      rw [List.cons_append, insertParts_cons, hc]
      simp [mkChild_part]
    have hpart : (insertParts (pps ++ [w]) pat hd (mkChild pp)).part = pp := by
      rw [insertParts_part, mkChild_part]
    have hwstar : pp.front ≠ '*' := hw pp (List.mem_cons_self pp pps)
    have hwtail : ∀ s ∈ pps, s.front ≠ '*' :=
      fun s hs => hw s (List.mem_cons_of_mem pp hs)
    rw [hnode, List.cons_append]
    by_cases hpp : pp.front = ':'
    · obtain ⟨t, hsearch, hth, htp, htw, hti⟩ :=
        ih (mkChild pp) (assocSet acc (pp.drop 1) sp) rem hr rfl hwtail
      refine ⟨t, ?_, hth, htp, htw, hti⟩
      have hwild :
          (insertParts (pps ++ [w]) pat hd (mkChild pp)).isWild = true := by
        rw [insertParts_isWild]
        simp [mkChild, Node.isWild_mk, hpp]
      have hfind : List.find? (fun c => c.part == sp || c.isWild)
          [insertParts (pps ++ [w]) pat hd (mkChild pp)] =
            some (insertParts (pps ++ [w]) pat hd (mkChild pp)) :=
        List.find?_cons_of_pos _ (by simp [hwild])
      simp only [searchLoop, Node.children_mk, hfind]
      simp only [hpart]
      rw [if_neg hwstar, if_pos hpp]
      simp only [bindParams, if_pos hpp]
      exact hsearch
    · have hsp : pp = sp := by rwa [if_neg hpp] at hps
      obtain ⟨t, hsearch, hth, htp, htw, hti⟩ :=
        ih (mkChild pp) acc rem hr rfl hwtail
      refine ⟨t, ?_, hth, htp, htw, hti⟩
      have hfind : List.find? (fun c => c.part == sp || c.isWild)
          [insertParts (pps ++ [w]) pat hd (mkChild pp)] =
            some (insertParts (pps ++ [w]) pat hd (mkChild pp)) :=
        List.find?_cons_of_pos _ (by rw [hpart, hsp]; simp)
      simp only [searchLoop, Node.children_mk, hfind]
      simp only [hpart]
      rw [if_neg hwstar, if_neg hpp]
      simp only [bindParams, if_neg hpp]
      exact hsearch

/-- C2 (amended): for a pattern whose parse ends in a wildcard segment `w`
(= `*rest`), every path whose parse extends a positionwise match of the
pre-wildcard segments by **at least one** remaining segment is matched:
the walk returns the wildcard child immediately, with the handler and a
binding of `rest` to the remaining segments joined by `/`. -/
theorem search_wildcard_match (m P path : String) (hd : Handler)
    (pre spre rem : List String) (w : String)
    (hP : parsePattern P = pre ++ [w]) (hwld : w.front = '*')
    (hpre : ∀ s ∈ pre, s.front ≠ '*')
    (hpath : parsePattern path = spre ++ rem)
    (hm : List.Forall₂
      (fun pp sp => if pp.front = ':' then sp ≠ "" else pp = sp) pre spre)
    (hr : rem ≠ []) :
    ∃ t : Node,
      (Router.new.insert m P hd).search m path =
        some (t, assocSet (bindParams [] pre spre) (w.drop 1)
          (String.intercalate "/" rem)) ∧
      t.handler = some hd ∧ t.pattern = P ∧ t.part = w ∧ t.isWild = true ∧
      (Router.new.insert m P hd).getRoute m path =
        (some hd, assocSet (bindParams [] pre spre) (w.drop 1)
          (String.intercalate "/" rem)) ∧
      (assocSet (bindParams [] pre spre) (w.drop 1)
        (String.intercalate "/" rem)).lookup (w.drop 1) =
          some (String.intercalate "/" rem) := by
  obtain ⟨t, hsearch, hth, htp, htw, hti⟩ :=
    searchLoop_insert_wild P hd w hwld hm (.mk "" "" [] false none) [] rem hr
      rfl hpre
  have hs : (Router.new.insert m P hd).search m path =
      some (t, assocSet (bindParams [] pre spre) (w.drop 1)
        (String.intercalate "/" rem)) := by
    rw [search_new_insert, hP, hpath]
    exact hsearch
  refine ⟨t, hs, hth, htp, htw, hti, ?_, ?_⟩
  · simp only [Router.getRoute, hs, hth]
  · exact lookup_assocSet_self _ _ _

/-- C2 counterexample: with GET `/files/*path` registered, the path
`/files` — zero remaining segments after the matched prefix — is *not*
matched: the walk ends at the wildcard's parent node, which carries no
handler, so `getRoute` yields a nil handler and no binding for `path`;
the claim's “zero or more remaining segments” fails at zero. -/
theorem search_wildcard_zero_segments_no_match :
    ((Router.new.insert "GET" "/files/*path" [.mark 1]).getRoute "GET"
      "/files").1 = none ∧
    ((Router.new.insert "GET" "/files/*path" [.mark 1]).getRoute "GET"
      "/files").2.lookup "path" = none := by
  constructor <;> decide

/-- C2 witness: GET `/files/*path` registered, path `/files/a/b/c` matched
with `path = "a/b/c"`. -/
theorem search_wildcard_match_witness :
    parsePattern "/files/*path" = ["files"] ++ ["*path"] ∧
    parsePattern "/files/a/b/c" = ["files"] ++ ["a", "b", "c"] ∧
    (["a", "b", "c"] : List String) ≠ [] ∧
    ∃ t : Node,
      (Router.new.insert "GET" "/files/*path" [.mark 4]).search "GET"
          "/files/a/b/c" =
        some (t, assocSet (bindParams [] ["files"] ["files"])
          ("*path".drop 1) (String.intercalate "/" ["a", "b", "c"])) ∧
      t.handler = some [.mark 4] ∧ t.pattern = "/files/*path" ∧
      t.part = "*path" ∧ t.isWild = true ∧
      (Router.new.insert "GET" "/files/*path" [.mark 4]).getRoute "GET"
          "/files/a/b/c" =
        (some [.mark 4], assocSet (bindParams [] ["files"] ["files"])
          ("*path".drop 1) (String.intercalate "/" ["a", "b", "c"])) ∧
      (assocSet (bindParams [] ["files"] ["files"]) ("*path".drop 1)
        (String.intercalate "/" ["a", "b", "c"])).lookup ("*path".drop 1) =
          some (String.intercalate "/" ["a", "b", "c"]) :=
  ⟨by decide, by decide, by decide,
    search_wildcard_match "GET" "/files/*path" "/files/a/b/c" [.mark 4]
      ["files"] ["files"] ["a", "b", "c"] "*path" (by decide) (by decide)
      (by decide) (by decide) (by decide) (by decide)⟩

/-- C6: a failed route lookup is a normal outcome, not an error — when no
root exists for the method, when some level of the walk has no matching
child (`search` is nil), or when the node reached carries no stored
handler, `getRoute` yields a nil handler; dispatch then takes the
not-found branch: a 404 response with the context exactly as reset, and
no middleware (indeed no handler at all) runs. -/
theorem no_match_yields_404 (e : Engine) (f w r : Nat) (c0 : Context)
    (m p : String)
    (h : e.router.roots.find? (fun mr => mr.1 == m) = none ∨
         e.router.search m p = none ∨
         ∃ n ps, e.router.search m p = some (n, ps) ∧ n.handler = none) :
    (e.router.getRoute m p).1 = none ∧
    e.ServeHTTP f c0 w r m p = (.notFound, c0.reset w r) ∧
    (e.ServeHTTP f c0 w r m p).2.log = c0.log := by
  have hg : (e.router.getRoute m p).1 = none := by
    rcases h with h | h | ⟨n, ps, hs, hn⟩
    · have hs : e.router.search m p = none := by
        rw [Router.search, h]
      simp [Router.getRoute, hs]
    · simp [Router.getRoute, h]
    · simp [Router.getRoute, hs, hn]
  have hpair : e.router.getRoute m p = (none, (e.router.getRoute m p).2) := by
    rw [← hg]
  have hserve : e.ServeHTTP f c0 w r m p = (.notFound, c0.reset w r) := by
    rw [Engine.ServeHTTP, hpair]
  exact ⟨hg, hserve, by rw [hserve]; rfl⟩

/-- C6 witness: an engine with only GET `/user/:id` registered 404s a
POST to it (no root for the method), GET `/nope` (walk fails), and GET
`/user` (segment-count mismatch), never touching the middleware. -/
theorem no_match_yields_404_witness :
    ((⟨Router.new.insert "GET" "/user/:id" [.mark 1], [[.mark 9]]⟩ :
        Engine).router.roots.find? (fun mr => mr.1 == "POST") = none ∨
      (⟨Router.new.insert "GET" "/user/:id" [.mark 1], [[.mark 9]]⟩ :
        Engine).router.search "POST" "/user/3" = none ∨
      ∃ n ps, (⟨Router.new.insert "GET" "/user/:id" [.mark 1], [[.mark 9]]⟩ :
        Engine).router.search "POST" "/user/3" = some (n, ps) ∧
          n.handler = none) ∧
    ((⟨Router.new.insert "GET" "/user/:id" [.mark 1], [[.mark 9]]⟩ :
        Engine).router.getRoute "POST" "/user/3").1 = none ∧
    (⟨Router.new.insert "GET" "/user/:id" [.mark 1], [[.mark 9]]⟩ :
        Engine).ServeHTTP 9 staleCtx 0 0 "POST" "/user/3" =
      (.notFound, staleCtx.reset 0 0) ∧
    ((⟨Router.new.insert "GET" "/user/:id" [.mark 1], [[.mark 9]]⟩ :
        Engine).ServeHTTP 9 staleCtx 0 0 "POST" "/user/3").2.log =
      staleCtx.log :=
  ⟨Or.inl rfl,
    no_match_yields_404 _ 9 0 0 staleCtx "POST" "/user/3" (Or.inl rfl)⟩

theorem runSteps_pure (f : Nat) (steps : List Step) :
    ∀ (s : Context), pureSteps steps = true →
    runSteps f steps s = { s with log := s.log ++ marksOf steps } := by
  induction steps with
  | nil => intro s _; rw [runSteps]; simp [marksOf]
  | cons st rest ih =>
    intro s h
    cases st with
    | mark n =>
      have hrest : pureSteps rest = true := by
        simpa [pureSteps] using h
      rw [runSteps, ih _ hrest]
      simp [marksOf]
    | next => simp [pureSteps] at h
    | abort => simp [pureSteps] at h

/-- The invocation loop over a suffix of pure (mark-only) handlers invokes
each of them once, in index order, and stops with the cursor at the chain
length. -/
theorem nextFrom_pure (f : Nat) :
    ∀ (j : Nat) (cw cr sc : Nat) (ps : List (String × String))
      (hs : List Handler) (ks : List (String × Nat)) (lg : List Event),
    (∀ h ∈ hs, pureSteps h = true) → j ≤ hs.length → hs.length - j < f →
    nextFrom f ⟨cw, cr, ps, hs, (j : Int), ks, sc, lg⟩ =
      ⟨cw, cr, ps, hs, (hs.length : Int), ks, sc,
        lg ++ traceFrom j (hs.drop j)⟩ := by
  induction f with
  | zero => intro j cw cr sc ps hs ks lg _ _ hf; omega
  | succ f ih =>
    intro j cw cr sc ps hs ks lg hp hle hf
    rw [nextFrom]
    by_cases hlt : j < hs.length
    · rw [if_pos (by refine ⟨by simp, ?_⟩; simp; omega)]
      have hjget : hs.getD j [] = hs[j] := List.getD_eq_getElem hs [] hlt
      have hpure : pureSteps (hs.getD j []) = true := by
        rw [hjget]; exact hp _ (hs.getElem_mem hlt)
      dsimp only
      simp only [Int.toNat_ofNat]
      rw [runSteps_pure f _ _ hpure]
      dsimp only
      have hcast : ((j : Int) + 1) = ((j + 1 : Nat) : Int) := by
        push_cast; ring
      rw [hcast, ih (j + 1) cw cr sc ps hs ks _ hp (by omega) (by omega)]
      have hdropj : hs.drop j = hs[j] :: hs.drop (j + 1) :=
        List.drop_eq_getElem_cons hlt
      rw [hdropj, traceFrom, ← hjget]
      simp [List.append_assoc]
    · have hj : j = hs.length := by omega
      rw [if_neg (by simp; omega)]
      subst hj
      simp [traceFrom]

theorem invokes_marksOf (l : List Step) : invokes (marksOf l) = [] := by
  induction l with
  | nil => rfl
  | cons st rest ih =>
    cases st with
    | next => simpa [marksOf] using ih
    | abort => simpa [marksOf] using ih
    | mark n => simpa [marksOf, invokes] using ih

theorem invokes_append (a b : List Event) :
    invokes (a ++ b) = invokes a ++ invokes b :=
  List.filterMap_append a b _

/-- The invoked indices of a pure trace starting at `j` are `j, j+1, …`. -/
theorem invokes_traceFrom (hs : List Handler) :
    ∀ j : Nat, invokes (traceFrom j hs) = List.range' j hs.length := by
  induction hs with
  | nil => intro j; rfl
  | cons h t ih =>
    intro j
    rw [traceFrom, List.length_cons, List.range'_succ]
    show invokes (Event.invoke j :: (marksOf h ++ traceFrom (j + 1) t)) = _
    rw [show Event.invoke j :: (marksOf h ++ traceFrom (j + 1) t) =
      [Event.invoke j] ++ (marksOf h ++ traceFrom (j + 1) t) from rfl]
    rw [invokes_append, invokes_append, invokes_marksOf, ih (j + 1)]
    rfl

/-- C7: dispatching a matched route runs the whole chain inside one `Next`
call: the handlers of `middlewares ++ [matched]` are invoked at strictly
increasing cursor positions `0, 1, …` — global middleware in registration
order, then the matched handler — until the cursor reaches the chain
length; a handler that returns without calling `Next` (here: every
mark-only handler) does not stop the chain. -/
theorem next_runs_chain_in_order (e : Engine) (f cw cr : Nat) (c0 : Context)
    (m p : String) (hd : Handler) (ps : List (String × String))
    (hroute : e.router.getRoute m p = (some hd, ps))
    (hpure : ∀ h ∈ e.middlewares, pureSteps h = true)
    (hph : pureSteps hd = true)
    (hf : e.middlewares.length + 1 < f) :
    (e.ServeHTTP f c0 cw cr m p).1 = .completed ∧
    (e.ServeHTTP f c0 cw cr m p).2.log =
      c0.log ++ traceFrom 0 (e.middlewares ++ [hd]) ∧
    invokes ((e.ServeHTTP f c0 cw cr m p).2.log) =
      invokes c0.log ++ List.range (e.middlewares.length + 1) ∧
    (e.ServeHTTP f c0 cw cr m p).2.index =
      ((e.middlewares.length + 1 : Nat) : Int) ∧
    List.Pairwise (· < ·) (List.range (e.middlewares.length + 1)) := by
  obtain ⟨w0, r0, p0, h0, i0, k0, s0, l0⟩ := c0
  have hlen : (e.middlewares ++ [hd]).length = e.middlewares.length + 1 := by
    simp
  have hchain : ∀ h ∈ e.middlewares ++ [hd], pureSteps h = true := by
    intro h hh
    rcases List.mem_append.mp hh with h' | h'
    · exact hpure h h'
    · rw [List.mem_singleton.mp h']; exact hph
  have hnext : Context.Next f
      ⟨cw, cr, ps, e.middlewares ++ [hd], -1, [], s0, l0⟩ =
      ⟨cw, cr, ps, e.middlewares ++ [hd],
        (((e.middlewares ++ [hd]).length : Nat) : Int), [], s0,
        l0 ++ traceFrom 0 (e.middlewares ++ [hd])⟩ := by
    rw [Context.Next]
    have h01 : ((-1 : Int) + 1) = ((0 : Nat) : Int) := by norm_num
    show nextFrom f ⟨cw, cr, ps, e.middlewares ++ [hd], -1 + 1, [], s0, l0⟩ = _
    rw [h01, nextFrom_pure f 0 cw cr s0 ps (e.middlewares ++ [hd]) [] l0
      hchain (by omega) (by rw [hlen]; omega)]
    rw [List.drop_zero]
  have hserve : e.ServeHTTP f ⟨w0, r0, p0, h0, i0, k0, s0, l0⟩ cw cr m p =
      (.completed,
        ⟨cw, cr, ps, e.middlewares ++ [hd],
          (((e.middlewares ++ [hd]).length : Nat) : Int), [], s0,
          l0 ++ traceFrom 0 (e.middlewares ++ [hd])⟩) := by
    rw [Engine.ServeHTTP, hroute]
    show (Response.completed, Context.Next f
      ⟨cw, cr, ps, e.middlewares ++ [hd], -1, [], s0, l0⟩) = _
    rw [hnext]
  rw [hserve]
  refine ⟨rfl, rfl, ?_, by rw [hlen], List.pairwise_lt_range _⟩
  show invokes (l0 ++ traceFrom 0 (e.middlewares ++ [hd])) = _
  rw [invokes_append, invokes_traceFrom, hlen, List.range_eq_range']

/-- C7 witness: two mark-only middleware plus a matched mark-only handler
run as positions 0, 1, 2 of one chain. -/
theorem next_runs_chain_in_order_witness :
    (⟨Router.new.insert "GET" "/a" [.mark 30], [[.mark 10], [.mark 20]]⟩ :
        Engine).router.getRoute "GET" "/a" = (some [.mark 30], []) ∧
    ((⟨Router.new.insert "GET" "/a" [.mark 30], [[.mark 10], [.mark 20]]⟩ :
        Engine).ServeHTTP 9 staleCtx 0 0 "GET" "/a").1 = .completed ∧
    ((⟨Router.new.insert "GET" "/a" [.mark 30], [[.mark 10], [.mark 20]]⟩ :
        Engine).ServeHTTP 9 staleCtx 0 0 "GET" "/a").2.log =
      staleCtx.log ++
        traceFrom 0 ([[.mark 10], [.mark 20]] ++ [[.mark 30]]) ∧
    invokes (((⟨Router.new.insert "GET" "/a" [.mark 30],
        [[.mark 10], [.mark 20]]⟩ :
        Engine).ServeHTTP 9 staleCtx 0 0 "GET" "/a").2.log) =
      invokes staleCtx.log ++ List.range (2 + 1) ∧
    ((⟨Router.new.insert "GET" "/a" [.mark 30], [[.mark 10], [.mark 20]]⟩ :
        Engine).ServeHTTP 9 staleCtx 0 0 "GET" "/a").2.index =
      ((2 + 1 : Nat) : Int) ∧
    List.Pairwise (· < ·) (List.range (2 + 1)) :=
  ⟨rfl, next_runs_chain_in_order _ 9 0 0 staleCtx "GET" "/a" [.mark 30] []
    rfl (by decide) (by decide) (by decide)⟩

theorem runSteps_append (f : Nat) (a b : List Step) :
    ∀ s : Context, runSteps f (a ++ b) s = runSteps f b (runSteps f a s) := by
  induction a with
  | nil => intro s; rw [List.nil_append, runSteps]
  | cons st rest ih =>
    intro s
    cases st with
    | mark n => rw [List.cons_append, runSteps, runSteps, ih]
    | abort => rw [List.cons_append, runSteps, runSteps, ih]
    | next => rw [List.cons_append, runSteps, runSteps, ih]

/-- Once the cursor is out of range the loop does nothing. -/
theorem nextFrom_done (f : Nat) (s : Context)
    (h : ¬(0 ≤ s.index ∧ s.index < (s.handlers.length : Int))) :
    nextFrom f s = s := by
  cases f with
  | zero => rw [nextFrom]
  | succ f => rw [nextFrom, if_neg h]

theorem getD_append_middle {α : Type} (pre post : List α) (x d : α) :
    (pre ++ [x] ++ post).getD pre.length d = x := by
  have h1 : (pre ++ [x] ++ post).getD pre.length d =
      (pre ++ [x]).getD pre.length d := by
    rw [List.getD_eq_getElem _ _ (by simp),
      List.getD_eq_getElem _ _ (by simp)]
    exact List.getElem_append_left (by simp)
  rw [h1, List.getD_eq_getElem _ _ (by simp)]
  rw [List.getElem_append_right (by omega)]
  simp

theorem getD_append_left {α : Type} (pre post : List α) (j : Nat) (d : α)
    (hj : j < pre.length) : (pre ++ post).getD j d = pre[j] := by
  rw [List.getD_eq_getElem _ _ (by simp; omega),
    List.getElem_append_left hj]

theorem invoke_not_mem_marksOf (i : Nat) (l : List Step) :
    Event.invoke i ∉ marksOf l := by
  induction l with
  | nil => simp [marksOf]
  | cons st rest ih =>
    cases st with
    | next => simpa [marksOf] using ih
    | abort => simpa [marksOf] using ih
    | mark n => simpa [marksOf] using ih

theorem invoke_mem_traceFrom (i : Nat) (hs : List Handler) :
    ∀ j : Nat, Event.invoke i ∈ traceFrom j hs → j ≤ i ∧ i < j + hs.length := by
  induction hs with
  | nil => intro j h; simp [traceFrom] at h
  | cons h t ih =>
    intro j hmem
    rw [traceFrom, List.mem_cons] at hmem
    rcases hmem with heq | hmem
    · injection heq with hi
      subst hi
      simp
    · rcases List.mem_append.mp hmem with hmem | hmem
      · exact absurd hmem (invoke_not_mem_marksOf i h)
      · have := ih (j + 1) hmem
        constructor <;> [omega; (simp [List.length_cons]; omega)]

/-- Running the loop into a chain whose handler at position `pre.length`
calls `Abort` (with mark-only code around it): the pure prefix runs in
order, the aborting handler runs to its end — the marks after the `Abort`
call still appear — and nothing after it is ever invoked; the loop's final
increment leaves the cursor one past the chain length. -/
theorem nextFrom_abort (f : Nat) :
    ∀ (j : Nat) (cw cr sc : Nat) (ps : List (String × String))
      (pre post : List Handler) (a b : List Step)
      (ks : List (String × Nat)) (lg : List Event),
    (∀ h ∈ pre, pureSteps h = true) → pureSteps a = true →
    pureSteps b = true → j ≤ pre.length → pre.length - j < f →
    nextFrom f ⟨cw, cr, ps, pre ++ [a ++ Step.abort :: b] ++ post,
        (j : Int), ks, sc, lg⟩ =
      ⟨cw, cr, ps, pre ++ [a ++ Step.abort :: b] ++ post,
        ((pre ++ [a ++ Step.abort :: b] ++ post).length : Int) + 1, ks, sc,
        lg ++ traceFrom j (pre.drop j) ++
          (Event.invoke pre.length :: (marksOf a ++ marksOf b))⟩ := by
  induction f with
  | zero => intro j cw cr sc ps pre post a b ks lg _ _ _ _ hf; omega
  | succ f ih =>
    intro j cw cr sc ps pre post a b ks lg hp ha hb hle hf
    have hlen : (pre ++ [a ++ Step.abort :: b] ++ post).length =
        pre.length + 1 + post.length := by simp; omega
    by_cases hlt : j < pre.length
    · rw [nextFrom, if_pos (by refine ⟨by simp, ?_⟩; simp; omega)]
      dsimp only
      simp only [Int.toNat_ofNat]
      have hget : (pre ++ [a ++ Step.abort :: b] ++ post).getD j [] =
          pre[j] := by
        rw [List.append_assoc]
        exact getD_append_left pre _ j [] hlt
      rw [hget]
      have hpure : pureSteps pre[j] = true := hp _ (pre.getElem_mem hlt)
      rw [runSteps_pure f _ _ hpure]
      dsimp only
      have hcast : ((j : Int) + 1) = ((j + 1 : Nat) : Int) := by
        push_cast; ring
      rw [hcast, ih (j + 1) cw cr sc ps pre post a b ks _ hp ha hb
        (by omega) (by omega)]
      have hdropj : pre.drop j = pre[j] :: pre.drop (j + 1) :=
        List.drop_eq_getElem_cons hlt
      rw [hdropj, traceFrom]
      simp [List.append_assoc]
    · have hj : j = pre.length := by omega
      subst hj
      rw [nextFrom, if_pos (by refine ⟨by simp, ?_⟩; simp)]
      dsimp only
      simp only [Int.toNat_ofNat]
      rw [getD_append_middle]
      rw [runSteps_append, runSteps_pure f a _ ha]
      rw [runSteps]
      rw [runSteps_pure f b _ hb]
      dsimp only
      rw [nextFrom_done f _ (by dsimp only; omega)]
      rw [List.drop_length, traceFrom]
      simp [List.append_assoc]

/-- C8: if the handler at chain position `i = pre.length` calls `Abort()`,
no handler at a position greater than `i` is ever invoked for that
request; the aborting handler continues executing after the call (the
marks `b` after the `Abort` still appear, in order, at the end of the
log); and `Abort` signals no error and writes no default response — the
status code is untouched. -/
theorem abort_stops_chain (f cw cr sc : Nat) (ps : List (String × String))
    (pre post : List Handler) (a b : List Step) (ks : List (String × Nat))
    (hp : ∀ h ∈ pre, pureSteps h = true) (ha : pureSteps a = true)
    (hb : pureSteps b = true) (hf : pre.length < f) :
    Context.Next f ⟨cw, cr, ps, pre ++ [a ++ Step.abort :: b] ++ post,
        -1, ks, sc, []⟩ =
      ⟨cw, cr, ps, pre ++ [a ++ Step.abort :: b] ++ post,
        ((pre ++ [a ++ Step.abort :: b] ++ post).length : Int) + 1, ks, sc,
        traceFrom 0 pre ++
          (Event.invoke pre.length :: (marksOf a ++ marksOf b))⟩ ∧
    (∀ i, Event.invoke i ∈
        traceFrom 0 pre ++
          (Event.invoke pre.length :: (marksOf a ++ marksOf b)) →
      i ≤ pre.length) ∧
    (Context.Next f ⟨cw, cr, ps, pre ++ [a ++ Step.abort :: b] ++ post,
        -1, ks, sc, []⟩).statusCode = sc := by
  have hnext : Context.Next f
      ⟨cw, cr, ps, pre ++ [a ++ Step.abort :: b] ++ post, -1, ks, sc, []⟩ =
      ⟨cw, cr, ps, pre ++ [a ++ Step.abort :: b] ++ post,
        ((pre ++ [a ++ Step.abort :: b] ++ post).length : Int) + 1, ks, sc,
        traceFrom 0 pre ++
          (Event.invoke pre.length :: (marksOf a ++ marksOf b))⟩ := by
    rw [Context.Next]
    have h01 : ((-1 : Int) + 1) = ((0 : Nat) : Int) := by norm_num
    show nextFrom f
      ⟨cw, cr, ps, pre ++ [a ++ Step.abort :: b] ++ post, -1 + 1, ks, sc,
        []⟩ = _
    rw [h01, nextFrom_abort f 0 cw cr sc ps pre post a b ks [] hp ha hb
      (by omega) (by omega)]
    rw [List.drop_zero, List.nil_append]
  refine ⟨hnext, ?_, by rw [hnext]⟩
  intro i hmem
  rcases List.mem_append.mp hmem with hmem | hmem
  · exact le_of_lt (by have := invoke_mem_traceFrom i pre 0 hmem; omega)
  · rw [List.mem_cons] at hmem
    rcases hmem with heq | hmem
    · injection heq with hi; omega
    · rcases List.mem_append.mp hmem with hmem | hmem
      · exact absurd hmem (invoke_not_mem_marksOf i a)
      · exact absurd hmem (invoke_not_mem_marksOf i b)

/-- C8 witness: middleware 0 is pure, middleware 1 aborts between two
marks, a handler follows; positions 0 and 1 run (including the mark after
the `Abort`) and position 2 never does. -/
theorem abort_stops_chain_witness :
    (∀ h ∈ [[Step.mark 10]], pureSteps h = true) ∧
    pureSteps [Step.mark 21] = true ∧ pureSteps [Step.mark 22] = true ∧
    (1 : Nat) < 9 ∧
    (Context.Next 9 ⟨0, 0, [], [[Step.mark 10]] ++
          [[Step.mark 21] ++ Step.abort :: [Step.mark 22]] ++
          [[Step.mark 30]], -1, [], 200, []⟩ =
        ⟨0, 0, [], [[Step.mark 10]] ++
          [[Step.mark 21] ++ Step.abort :: [Step.mark 22]] ++
          [[Step.mark 30]],
          (([[Step.mark 10]] ++
            [[Step.mark 21] ++ Step.abort :: [Step.mark 22]] ++
            [[Step.mark 30]]).length : Int) + 1, [], 200,
          traceFrom 0 [[Step.mark 10]] ++
            (Event.invoke 1 ::
              (marksOf [Step.mark 21] ++ marksOf [Step.mark 22]))⟩ ∧
      (∀ i, Event.invoke i ∈
          traceFrom 0 [[Step.mark 10]] ++
            (Event.invoke 1 ::
              (marksOf [Step.mark 21] ++ marksOf [Step.mark 22])) →
        i ≤ 1) ∧
      (Context.Next 9 ⟨0, 0, [], [[Step.mark 10]] ++
          [[Step.mark 21] ++ Step.abort :: [Step.mark 22]] ++
          [[Step.mark 30]], -1, [], 200, []⟩).statusCode = 200) :=
  ⟨by decide, by decide, by decide, by decide,
    abort_stops_chain 9 0 0 200 [] [[Step.mark 10]] [[Step.mark 30]]
      [Step.mark 21] [Step.mark 22] [] (by decide) (by decide) (by decide)
      (by decide)⟩

end EasyGo
